import Mathlib

/-!
Verification of the benchmark history compaction and merge subsystem of
`agentic_optimizer` (scripts/parse-benchmarks.py and scripts/backfill-history.py).

The development shallowly embeds the Python source:

* history entries are flattened dictionaries `{"timestamp": ts, **metrics}`,
  modelled by `HistEntry` (a timestamp together with an association list of
  metric values; the parsers never emit a metric named `"timestamp"`);
* epoch seconds are modelled by `ℚ`; `datetime.fromisoformat` (the
  `parse_timestamp` collaborator) is abstracted by a `parse : α → Option ℚ`
  argument, `none` standing for the exception branch;
* `smart_downsample_history`, `add_history_entry`, `load_existing_history`
  and the merge step of `backfill_history` are translated line by line.
-/

namespace AgenticOptimizer

/-- A flattened history entry: the source builds `{"timestamp": ts}` and then
`update`s it with the metrics mapping (parse-benchmarks.py lines 470-476,
backfill-history.py lines 168-169). -/
structure HistEntry where
  timestamp : String
  metrics : List (String × ℚ)
deriving DecidableEq, Repr

/-- The results document produced by a parser: a timestamp, the current
`metrics` mapping, and the `history` field filled in by `add_history_entry`
(absent, i.e. `[]`, until then). -/
structure Results where
  timestamp : String
  metrics : List (String × ℚ)
  history : List HistEntry
deriving DecidableEq, Repr

/-- Epoch seconds of an entry (`timestamp_sec`): the parsed value on success, and the
sentinel `0` when parsing raises (parse-benchmarks.py lines 362-378: the
`except` branch stores `"timestamp_sec": 0`). -/
def timestamp_sec {α : Type} (parse : α → Option ℚ) (e : α) : ℚ :=
  (parse e).getD 0

/-- The eviction score of interior index `i`, exactly as computed in
parse-benchmarks.py lines 395-419 over the `timestamp_sec` values `secs`:
`time_to_prev`, `time_to_next`, their minimum, the total time range
(last minus first), then `age_score` and the clamped `proximity_score`
(both `0` unless `total_time_range > 0`), combined as `0.6 p + 0.4 a`.
Out-of-range list accesses default to `0`; the source only evaluates the
score for `1 ≤ i ≤ n-2`, where every access is in bounds. -/
def combined_score (secs : List ℚ) (i : ℕ) : ℚ :=
  let time_to_prev := secs.getD i 0 - secs.getD (i - 1) 0
  let time_to_next := secs.getD (i + 1) 0 - secs.getD i 0
  let min_neighbor_distance := min time_to_prev time_to_next
  let total_time_range := secs.getD (secs.length - 1) 0 - secs.getD 0 0
  let age_score : ℚ :=
    if 0 < total_time_range then
      (secs.getD i 0 - secs.getD 0 0) / total_time_range
    else 0
  let proximity_score : ℚ :=
    if 0 < total_time_range then
      max 0 (min 1 (1 - min_neighbor_distance / (total_time_range / (secs.length : ℚ))))
    else 0
  0.6 * proximity_score + 0.4 * age_score

/-- The interior indices that enter the scoring loop: `range(1, len-1)` minus
those with `timestamp_sec == 0` (parse-benchmarks.py lines 390-393). -/
def scoreable_indices (secs : List ℚ) : List ℕ :=
  (List.range' 1 (secs.length - 2)).filter (fun i => decide (secs.getD i 0 ≠ 0))

/-- The `scores` list of (index, combined_score) records built by the scoring
loop (parse-benchmarks.py lines 388-424), in index order. -/
def scores_list (secs : List ℚ) : List (ℕ × ℚ) :=
  (scoreable_indices secs).map (fun i => (i, combined_score secs i))

/-- The indices marked for removal: the source stably sorts `scores` by
descending score (`scores.sort(key=..., reverse=True)`, a stable sort, so ties
keep index order — `mergeSort` with `b.2 ≤ a.2` picks the left element on
ties, matching) and removes the first `to_remove_count` of them
(parse-benchmarks.py lines 426-444). -/
def removal_indices (secs : List ℚ) (to_remove_count : ℕ) : List ℕ :=
  (((scores_list secs).mergeSort (fun a b => decide (b.2 ≤ a.2))).take
      to_remove_count).map Prod.fst

/-- The downsampler `smart_downsample_history` (parse-benchmarks.py lines 348-450, duplicated
verbatim in backfill-history.py lines 16-118): identity when within the cap;
otherwise keep index `0`, index `n-1`, and every index not marked for removal,
returning the kept entries in original order (`[entries[i]["data"] for i in
sorted(to_keep)]` is the in-order filter of the indexed list). -/
def smart_downsample_history {α : Type} (parse : α → Option ℚ)
    (history : List α) (max_entries : ℕ) : List α :=
  if history.length ≤ max_entries then history
  else
    let secs := history.map (timestamp_sec parse)
    let removal := removal_indices secs (history.length - max_entries)
    (history.enum.filter (fun p =>
      decide (p.1 = 0 ∨ p.1 = history.length - 1 ∨ p.1 ∉ removal))).map Prod.snd

/-- The merge of parse-benchmarks.py, `add_history_entry` (lines 467-484): build the
flattened entry from the current results, append it to the existing history
(most recent last) and store the result in `results["history"]`. -/
def add_history_entry (results : Results) (existing_history : List HistEntry) :
    Results :=
  let history_entry : HistEntry := ⟨results.timestamp, results.metrics⟩
  let new_history := existing_history ++ [history_entry]
  { results with history := new_history }

/-- The merge step of `backfill_history` (backfill-history.py lines 167-176):
append the current entry only when the history is empty or its last entry's
timestamp differs. -/
def backfill_merge (history : List HistEntry) (current_entry : HistEntry) :
    List HistEntry :=
  match history.getLast? with
  | none => history ++ [current_entry]
  | some last =>
      if last.timestamp ≠ current_entry.timestamp then history ++ [current_entry]
      else history

/-- Loading of stored history, `load_existing_history` (parse-benchmarks.py lines 452-465), success path:
read the stored `history` field and downsample it to `max_history`. -/
def load_existing_history (parse : HistEntry → Option ℚ)
    (stored : List HistEntry) (max_history : ℕ) : List HistEntry :=
  smart_downsample_history parse stored max_history

/-- One per-category block of `main` (parse-benchmarks.py lines 512-526): the
history written back to disk is the loaded (downsampled) history with the new
entry appended by `add_history_entry`. -/
def written_history (parse : HistEntry → Option ℚ) (results : Results)
    (stored : List HistEntry) (max_history : ℕ) : List HistEntry :=
  (add_history_entry results (load_existing_history parse stored max_history)).history

/-- Concrete input for the C1 counterexample: an existing one-entry history and
a new snapshot that carries exactly the same timestamp. -/
def c1_results : Results :=
  ⟨"2024-01-01T00:00:00", [("total_time_ms", 100)], []⟩

/-- Concrete existing history for the C1 counterexample. -/
def c1_existing : List HistEntry :=
  [⟨"2024-01-01T00:00:00", [("total_time_ms", 100)]⟩]

/-- Concrete snapshot for the C2 counterexample: previous value 100, current
value 120 for metric `x`. -/
def c2_results : Results :=
  ⟨"2024-01-02T00:00:00", [("x", 120)], []⟩

/-- Concrete previous history entry for the C2 counterexample. -/
def c2_prev : HistEntry :=
  ⟨"2024-01-01T00:00:00", [("x", 100)]⟩

/-- Concrete stored history for the C3 counterexample: three entries with
distinct parseable timestamps. -/
def c3_stored : List HistEntry :=
  [⟨"2024-01-01T00:00:00", []⟩, ⟨"2024-01-02T00:00:00", []⟩,
   ⟨"2024-01-03T00:00:00", []⟩]

/-- Concrete timestamp parser for the C3 counterexample, mapping the three
stored timestamps to epoch values 1, 2, 3 (and the new snapshot's to 4). -/
def c3_parse (e : HistEntry) : Option ℚ :=
  if e.timestamp = "2024-01-01T00:00:00" then some 1
  else if e.timestamp = "2024-01-02T00:00:00" then some 2
  else if e.timestamp = "2024-01-03T00:00:00" then some 3
  else some 4

/-- Concrete new snapshot for the C3 counterexample. -/
def c3_results : Results :=
  ⟨"2024-01-04T00:00:00", [], []⟩

/-- The Scorer contract written from the spec's words (§4.1), for comparison
with `combined_score`: `neighbor_gap`, `range`, the degenerate `range == 0`
case with both component scores `0`, `age_score`, `expected_spacing = range/n`,
the clamped `proximity_score`, and `combined = 0.6 p + 0.4 a`. -/
def spec_score (t : List ℚ) (i : ℕ) : ℚ :=
  let neighbor_gap := min (t.getD i 0 - t.getD (i - 1) 0) (t.getD (i + 1) 0 - t.getD i 0)
  let time_range := t.getD (t.length - 1) 0 - t.getD 0 0
  if time_range = 0 then 0.6 * 0 + 0.4 * 0
  else
    let age_score := (t.getD i 0 - t.getD 0 0) / time_range
    let expected_spacing := time_range / (t.length : ℚ)
    let proximity_score := max 0 (min 1 (1 - neighbor_gap / expected_spacing))
    0.6 * proximity_score + 0.4 * age_score

/-! ### Helper lemmas about the downsampler -/

/-- The identity branch: within the cap, the input is returned unchanged. -/
theorem downsample_of_le {α : Type} (parse : α → Option ℚ) (history : List α)
    (max_entries : ℕ) (h : history.length ≤ max_entries) :
    smart_downsample_history parse history max_entries = history := by
  unfold smart_downsample_history
  rw [if_pos h]

/-- Membership in the scoreable-index list gives the loop bounds of the source
(`range(1, len-1)`) and the non-sentinel condition. -/
theorem mem_scoreable_indices {secs : List ℚ} {j : ℕ}
    (h : j ∈ scoreable_indices secs) :
    1 ≤ j ∧ j < secs.length - 1 ∧ secs.getD j 0 ≠ 0 := by
  unfold scoreable_indices at h
  rcases List.mem_filter.mp h with ⟨hr, hd⟩
  rcases List.mem_range'_1.mp hr with ⟨h1, h2⟩
  exact ⟨h1, by omega, of_decide_eq_true hd⟩

/-- The scoreable indices are pairwise distinct. -/
theorem scoreable_indices_nodup (secs : List ℚ) :
    (scoreable_indices secs).Nodup :=
  List.Nodup.filter _ (List.nodup_range' 1 (secs.length - 2))

/-- The indices of the `scores` records are exactly the scoreable indices. -/
theorem scores_list_map_fst (secs : List ℚ) :
    (scores_list secs).map Prod.fst = scoreable_indices secs := by
  simp [scores_list, Function.comp_def]

/-- Every index marked for removal is a scoreable interior index. -/
theorem removal_subset_scoreable {secs : List ℚ} {k j : ℕ}
    (h : j ∈ removal_indices secs k) : j ∈ scoreable_indices secs := by
  unfold removal_indices at h
  rcases List.mem_map.mp h with ⟨p, hp, rfl⟩
  have hp2 : p ∈ scores_list secs :=
    List.mem_mergeSort.mp (List.mem_of_mem_take hp)
  rw [← scores_list_map_fst]
  exact List.mem_map_of_mem Prod.fst hp2

/-- The removal list has no duplicate indices. -/
theorem removal_indices_nodup (secs : List ℚ) (k : ℕ) :
    (removal_indices secs k).Nodup := by
  unfold removal_indices
  rw [List.map_take]
  have hperm :=
    (List.mergeSort_perm (scores_list secs)
      (fun a b => decide (b.2 ≤ a.2))).map Prod.fst
  rw [scores_list_map_fst] at hperm
  exact (List.take_sublist _ _).nodup (hperm.nodup_iff.mpr (scoreable_indices_nodup secs))

/-- Exactly `min to_remove_count (number of scoreable points)` indices are
marked for removal. -/
theorem removal_indices_length (secs : List ℚ) (k : ℕ) :
    (removal_indices secs k).length = min k (scores_list secs).length := by
  unfold removal_indices
  rw [List.length_map, List.length_take, List.length_mergeSort]

/-- Unfolding of the downsampler in the over-cap branch. -/
theorem smart_downsample_eq {α : Type} (parse : α → Option ℚ)
    (history : List α) (max_entries : ℕ) (h : ¬ history.length ≤ max_entries) :
    smart_downsample_history parse history max_entries =
      (history.enum.filter (fun p =>
        decide (p.1 = 0 ∨ p.1 = history.length - 1 ∨
          p.1 ∉ removal_indices (history.map (timestamp_sec parse))
            (history.length - max_entries)))).map Prod.snd := by
  unfold smart_downsample_history
  rw [if_neg h]

/-- Length of the over-cap downsample: exactly
`min to_remove_count (number of scored points)` entries are evicted. -/
theorem smart_downsample_length {α : Type} (parse : α → Option ℚ)
    (history : List α) (max_entries : ℕ) (h : max_entries < history.length) :
    (smart_downsample_history parse history max_entries).length =
      history.length -
        min (history.length - max_entries)
          (scores_list (history.map (timestamp_sec parse))).length := by
  have hn1 : 0 < history.length := by omega
  rw [smart_downsample_eq parse history max_entries (by omega), List.length_map,
    ← List.countP_eq_length_filter]
  set secs := history.map (timestamp_sec parse) with hsecs
  set n := history.length with hn
  set removal := removal_indices secs (n - max_entries) with hrem
  have hbound : ∀ j ∈ removal, 1 ≤ j ∧ j < n - 1 := by
    intro j hj
    have hj2 := mem_scoreable_indices (removal_subset_scoreable hj)
    rw [hsecs, List.length_map] at hj2
    exact ⟨hj2.1, hj2.2.1⟩
  have hcount : (history.enum.countP (fun p =>
      decide (p.1 = 0 ∨ p.1 = n - 1 ∨ p.1 ∉ removal))) =
      (List.range n).countP (fun i => decide (i = 0 ∨ i = n - 1 ∨ i ∉ removal)) := by
    conv_rhs => rw [hn, ← List.enum_map_fst history, List.countP_map]
    rfl
  have hnot : ((List.range n).countP (fun i =>
      ¬ (decide (i = 0 ∨ i = n - 1 ∨ i ∉ removal) = true))) = removal.length := by
    rw [List.countP_eq_length_filter]
    refine List.Perm.length_eq ?_
    rw [List.perm_ext_iff_of_nodup (List.Nodup.filter _ (List.nodup_range n))
      (removal_indices_nodup secs (n - max_entries))]
    intro a
    simp only [List.mem_filter, List.mem_range, decide_eq_true_eq, not_or,
      Decidable.not_not, decide_not, Bool.not_eq_true', decide_eq_false_iff_not]
    constructor
    · rintro ⟨-, -, -, ha⟩
      exact ha
    · intro ha
      rcases hbound a ha with ⟨h1, h2⟩
      exact ⟨by omega, by omega, by omega, ha⟩
  have hsplit := List.length_eq_countP_add_countP
    (p := fun i => decide (i = 0 ∨ i = n - 1 ∨ i ∉ removal)) (List.range n)
  rw [List.length_range, hnot] at hsplit
  have hlen : removal.length = min (n - max_entries) (scores_list secs).length :=
    removal_indices_length secs (n - max_entries)
  rw [hcount]
  omega

/-- When every entry's epoch value is nonzero, the whole interior is scored. -/
theorem scores_list_length_of_nonzero {α : Type} (parse : α → Option ℚ)
    (history : List α)
    (hall : ∀ e ∈ history, timestamp_sec parse e ≠ 0) :
    (scores_list (history.map (timestamp_sec parse))).length =
      history.length - 2 := by
  unfold scores_list scoreable_indices
  rw [List.length_map, List.filter_eq_self.mpr, List.length_range', List.length_map]
  intro a ha
  rw [List.length_map] at ha
  rcases List.mem_range'_1.mp ha with ⟨h1, h2⟩
  have hlt : a < (history.map (timestamp_sec parse)).length := by
    rw [List.length_map]; omega
  rw [decide_eq_true_eq, List.getD_eq_getElem _ _ hlt, List.getElem_map]
  exact hall _ (List.getElem_mem _)

/-- C1 (counterexample): `add_history_entry` has no duplicate-timestamp check.
Merging a snapshot whose timestamp equals the last stored entry's timestamp
still appends: the length grows, refuting the claim for the merge of
parse-benchmarks.py. -/
theorem add_history_entry_appends_on_duplicate_timestamp :
    c1_results.timestamp = (c1_existing.getLast (by decide)).timestamp ∧
    (add_history_entry c1_results c1_existing).history.length ≠ c1_existing.length := by
  constructor
  · rfl
  · decide

/-- C1 (amended): only the merge step of `backfill_history` deduplicates by
timestamp — when the history is non-empty and its last entry's timestamp
equals the current entry's, it returns the history unchanged — while
`add_history_entry` in parse-benchmarks.py always appends, growing the
history by exactly one entry. -/
theorem merge_duplicate_timestamp_dedup (history : List HistEntry)
    (current : HistEntry)
    (hlast : history.getLast?.map HistEntry.timestamp = some current.timestamp) :
    backfill_merge history current = history ∧
    ∀ (results : Results) (existing : List HistEntry),
      (add_history_entry results existing).history.length = existing.length + 1 := by
  constructor
  · unfold backfill_merge
    match hg : history.getLast? with
    | none => rw [hg] at hlast; simp at hlast
    | some last =>
        rw [hg] at hlast
        have hts : last.timestamp = current.timestamp := by simpa using hlast
        simp [hts]
  · intro results existing
    simp [add_history_entry]

/-- Witness for `merge_duplicate_timestamp_dedup` at a concrete input. -/
theorem merge_duplicate_timestamp_dedup_witness :
    backfill_merge c1_existing ⟨"2024-01-01T00:00:00", []⟩ = c1_existing :=
  (merge_duplicate_timestamp_dedup c1_existing ⟨"2024-01-01T00:00:00", []⟩
    (by decide)).1

/-- C2 (counterexample): with previous value 100 and current value 120 for
metric `x`, the merge of parse-benchmarks.py computes no delta fields: the
returned current-metrics mapping has no `x_change` and no `prev_x` key — it is
the input metrics unchanged. -/
theorem merge_computes_no_delta_fields_cex :
    (c2_prev.metrics.lookup ("x") = some 100 ∧
      c2_results.metrics.lookup ("x") = some 120) ∧
    (add_history_entry c2_results [c2_prev]).metrics.lookup ("x_change") = none ∧
    (add_history_entry c2_results [c2_prev]).metrics.lookup ("prev_x") = none := by
  refine ⟨⟨?_, ?_⟩, ?_, ?_⟩ <;> decide

/-- C2 (amended): `add_history_entry` carries the current metrics through
unchanged — it adds no `_change`/`prev_` fields — and the stored history entry
holds exactly the snapshot's timestamp and raw metrics. -/
theorem merge_metrics_passthrough (results : Results)
    (existing : List HistEntry) :
    (add_history_entry results existing).metrics = results.metrics ∧
    (add_history_entry results existing).history =
      existing ++ [⟨results.timestamp, results.metrics⟩] :=
  ⟨rfl, rfl⟩

/-- C3 (counterexample): the pipeline downsamples at load time and then
appends, so a stored history already at the cap is written back with
`max_entries + 1` entries. With cap 2 and three parseable stored entries the
written history has 3 entries, exceeding the cap. -/
theorem written_history_exceeds_cap_cex :
    (written_history c3_parse c3_results c3_stored 2).length = 3 ∧
    ¬ (written_history c3_parse c3_results c3_stored 2).length ≤ 2 := by
  have hall : ∀ e ∈ c3_stored, timestamp_sec c3_parse e ≠ 0 := by decide
  have h1 : (smart_downsample_history c3_parse c3_stored 2).length = 2 := by
    rw [smart_downsample_length c3_parse c3_stored 2 (by decide),
      scores_list_length_of_nonzero c3_parse c3_stored hall]
    decide
  have h2 : (written_history c3_parse c3_results c3_stored 2).length =
      (smart_downsample_history c3_parse c3_stored 2).length + 1 := by
    unfold written_history add_history_entry load_existing_history
    simp
  rw [h2, h1]
  omega

/-- C3 (amended): after every write the stored history length is at most
`max_entries + 1` — the cap is enforced by downsampling at load time, before
the new snapshot is appended — provided `max_entries ≥ 2` and every stored
timestamp parses to a nonzero epoch value. -/
theorem written_history_cap_plus_one (parse : HistEntry → Option ℚ)
    (results : Results) (stored : List HistEntry) (max_history : ℕ)
    (hmax : 2 ≤ max_history)
    (hall : ∀ e ∈ stored, timestamp_sec parse e ≠ 0) :
    (written_history parse results stored max_history).length ≤ max_history + 1 := by
  have h2 : (written_history parse results stored max_history).length =
      (smart_downsample_history parse stored max_history).length + 1 := by
    unfold written_history add_history_entry load_existing_history
    simp
  rw [h2]
  by_cases hle : stored.length ≤ max_history
  · rw [downsample_of_le parse stored _ hle]
    omega
  · rw [smart_downsample_length parse stored _ (by omega),
      scores_list_length_of_nonzero parse stored hall]
    omega

/-- Witness for `written_history_cap_plus_one` at a concrete input. -/
theorem written_history_cap_plus_one_witness :
    (written_history c3_parse c3_results c3_stored 2).length ≤ 2 + 1 :=
  written_history_cap_plus_one c3_parse c3_results c3_stored 2 (by decide)
    (by decide)

/-- C5 (counterexample): with every timestamp parseable the output length can
still exceed `min (len h) n`: first, with cap `n = 1` fewer than
`to_remove_count` interior points exist, so `[1, 2, 3]` downsples to length 2,
not 1; second, a parseable timestamp equal to the Unix epoch (value 0) is
excluded from scoring, so `[1, 0, 2, 3]` with cap 2 keeps 3 entries. -/
theorem downsample_size_bound_cex :
    (smart_downsample_history some [(1 : ℚ), 2, 3] 1).length ≠
        min [(1 : ℚ), 2, 3].length 1 ∧
    (smart_downsample_history some [(1 : ℚ), 0, 2, 3] 2).length ≠
        min [(1 : ℚ), 0, 2, 3].length 2 := by
  constructor
  · have hall : ∀ e ∈ [(1 : ℚ), 2, 3], timestamp_sec some e ≠ 0 := by decide
    rw [smart_downsample_length some [(1 : ℚ), 2, 3] 1 (by decide),
      scores_list_length_of_nonzero some [(1 : ℚ), 2, 3] hall]
    decide
  · have hs : (scores_list
        (List.map (timestamp_sec some) [(1 : ℚ), 0, 2, 3])).length = 1 := by
      unfold scores_list
      rw [List.length_map]
      decide
    rw [smart_downsample_length some [(1 : ℚ), 0, 2, 3] 2 (by decide), hs]
    decide

/-- C5 (amended): when the history is over the cap, the number of evicted
entries is exactly `min to_remove_count (count of scoreable interior points)`;
consequently `len (downsample h n) = min (len h) n` holds whenever `n ≥ 2` and
every timestamp parses to a nonzero epoch value (parseability alone does not
suffice: the epoch instant parses to the sentinel 0 and is never evicted). -/
theorem downsample_size_and_eviction_count {α : Type} (parse : α → Option ℚ)
    (history : List α) (max_entries : ℕ) :
    (max_entries < history.length →
      (smart_downsample_history parse history max_entries).length =
        history.length - min (history.length - max_entries)
          (scores_list (history.map (timestamp_sec parse))).length) ∧
    (2 ≤ max_entries → (∀ e ∈ history, timestamp_sec parse e ≠ 0) →
      (smart_downsample_history parse history max_entries).length =
        min history.length max_entries) := by
  refine ⟨fun h => smart_downsample_length parse history max_entries h, ?_⟩
  intro hmax hall
  by_cases hle : history.length ≤ max_entries
  · rw [downsample_of_le parse history _ hle]
    omega
  · rw [smart_downsample_length parse history _ (by omega),
      scores_list_length_of_nonzero parse history hall]
    omega

/-- Witness for `downsample_size_and_eviction_count` at a concrete input. -/
theorem downsample_size_and_eviction_count_witness :
    (smart_downsample_history some [(1 : ℚ), 2, 3, 10] 2).length =
      min [(1 : ℚ), 2, 3, 10].length 2 :=
  (downsample_size_and_eviction_count some [(1 : ℚ), 2, 3, 10] 2).2
    (by decide) (by decide)

/-- C7: the downsampled history is a subsequence of the input — every output
entry comes from the input and relative order is preserved. -/
theorem downsample_sublist {α : Type} (parse : α → Option ℚ)
    (history : List α) (max_entries : ℕ) :
    (smart_downsample_history parse history max_entries).Sublist history := by
  by_cases hle : history.length ≤ max_entries
  · rw [downsample_of_le parse history _ hle]
  · have h1 : (history.enum.filter (fun p =>
        decide (p.1 = 0 ∨ p.1 = history.length - 1 ∨
          p.1 ∉ removal_indices (history.map (timestamp_sec parse))
            (history.length - max_entries)))).Sublist history.enum :=
      List.filter_sublist history.enum
    have h2 := h1.map Prod.snd
    rw [List.enum_map_snd] at h2
    rw [smart_downsample_eq parse history _ hle]
    exact h2

/-- An entry whose `timestamp_sec` is the sentinel `0` is never scored, hence
never marked for removal, hence kept by the downsampler. -/
theorem mem_downsample_of_sec_zero {α : Type} (parse : α → Option ℚ)
    (history : List α) (max_entries : ℕ) {i : ℕ} (hi : i < history.length)
    (hz : timestamp_sec parse history[i] = 0) :
    history[i] ∈ smart_downsample_history parse history max_entries := by
  by_cases hle : history.length ≤ max_entries
  · rw [downsample_of_le parse history _ hle]
    exact List.getElem_mem hi
  · rw [smart_downsample_eq parse history _ hle]
    refine List.mem_map.mpr ⟨(i, history[i]), List.mem_filter.mpr ⟨?_, ?_⟩, rfl⟩
    · exact List.mk_mem_enum_iff_getElem?.mpr (List.getElem?_eq_getElem hi)
    · apply decide_eq_true
      refine Or.inr (Or.inr ?_)
      intro hmem
      have h2 := mem_scoreable_indices (removal_subset_scoreable hmem)
      apply h2.2.2
      have hlt : i < (history.map (timestamp_sec parse)).length := by
        rw [List.length_map]; exact hi
      rw [List.getD_eq_getElem _ _ hlt, List.getElem_map]
      exact hz

/-- C9: an entry whose timestamp cannot be parsed is excluded from scoring and
is never evicted: it always appears in the downsampler's output. -/
theorem downsample_keeps_unparseable {α : Type} (parse : α → Option ℚ)
    (history : List α) (max_entries : ℕ) (e : α) (he : e ∈ history)
    (hp : parse e = none) :
    e ∈ smart_downsample_history parse history max_entries := by
  rcases List.mem_iff_getElem.mp he with ⟨i, hi, rfl⟩
  exact mem_downsample_of_sec_zero parse history max_entries hi
    (by simp [timestamp_sec, hp])

/-- Witness for `downsample_keeps_unparseable` at a concrete input (entries
are `Option ℚ`, parsing is the identity, `none` is the unparseable entry). -/
theorem downsample_keeps_unparseable_witness :
    none ∈ smart_downsample_history id [some (1 : ℚ), none, some 2, some 3] 2 :=
  downsample_keeps_unparseable id [some (1 : ℚ), none, some 2, some 3] 2 none
    (by decide) rfl

/-- C10: an interior entry of an over-cap history whose timestamp parses
successfully to exactly the Unix epoch (numeric value 0) collides with the
unparseable-timestamp sentinel: it is excluded from scoring and always kept. -/
theorem downsample_keeps_epoch_sentinel {α : Type} (parse : α → Option ℚ)
    (history : List α) (max_entries : ℕ)
    (hover : max_entries < history.length) {i : ℕ} (hi : i < history.length)
    (h0 : 0 < i) (hin : i < history.length - 1)
    (hp : parse history[i] = some 0) :
    i ∉ scoreable_indices (history.map (timestamp_sec parse)) ∧
    history[i] ∈ smart_downsample_history parse history max_entries := by
  have hz : timestamp_sec parse history[i] = 0 := by
    simp [timestamp_sec, hp]
  constructor
  · intro hmem
    have h2 := mem_scoreable_indices hmem
    apply h2.2.2
    have hlt : i < (history.map (timestamp_sec parse)).length := by
      rw [List.length_map]; exact hi
    rw [List.getD_eq_getElem _ _ hlt, List.getElem_map]
    exact hz
  · exact mem_downsample_of_sec_zero parse history max_entries hi hz

/-- Witness for `downsample_keeps_epoch_sentinel` at a concrete input. -/
theorem downsample_keeps_epoch_sentinel_witness :
    1 ∉ scoreable_indices (List.map (timestamp_sec some) [(1 : ℚ), 0, 2, 3]) ∧
    (0 : ℚ) ∈ smart_downsample_history some [(1 : ℚ), 0, 2, 3] 2 :=
  downsample_keeps_epoch_sentinel some [(1 : ℚ), 0, 2, 3] 2 (by decide)
    (by decide) (by decide) (by decide) rfl

/-- Filtering preserves the last element when the predicate accepts it. -/
theorem getLast?_filter_of_pos {β : Type} (P : β → Bool) :
    ∀ (l : List β) (b : β), l.getLast? = some b → P b = true →
      (l.filter P).getLast? = some b
  | [], b, hl, _ => by simp at hl
  | [x], b, hl, hb => by
      simp only [List.getLast?_singleton, Option.some.injEq] at hl
      subst hl
      simp [List.filter, hb]
  | x :: y :: ys, b, hl, hb => by
      rw [List.getLast?_cons_cons] at hl
      have ih := getLast?_filter_of_pos P (y :: ys) b hl hb
      have hbmem : b ∈ (y :: ys).filter P :=
        List.mem_filter.mpr ⟨List.mem_of_getLast?_eq_some hl, hb⟩
      rw [List.filter_cons]
      split
      · cases hfl : (y :: ys).filter P with
        | nil => rw [hfl] at hbmem; simp at hbmem
        | cons c L =>
            rw [hfl] at ih
            rw [List.getLast?_cons_cons]
            exact ih
      · exact ih

/-- C6: when the history is over the cap, the downsampler keeps the first and
the last input entry: the output's head and last entries equal the input's. -/
theorem downsample_boundary {α : Type} (parse : α → Option ℚ)
    (history : List α) (max_entries : ℕ)
    (hover : max_entries < history.length) :
    (smart_downsample_history parse history max_entries).head? =
      history.head? ∧
    (smart_downsample_history parse history max_entries).getLast? =
      history.getLast? := by
  have hlen : 0 < history.length := by omega
  rw [smart_downsample_eq parse history _ (by omega)]
  constructor
  · cases history with
    | nil => simp at hlen
    | cons a t =>
        rw [List.enum_cons, List.filter_cons_of_pos (by simp)]
        simp
  · have hlast : history.enum.getLast? =
        some (history.length - 1, history[history.length - 1]) := by
      rw [List.getLast?_eq_getElem?, List.enum_length,
        List.getElem?_eq_getElem (by rw [List.enum_length]; omega),
        List.getElem_enum]
    rw [List.getLast?_map,
      getLast?_filter_of_pos _ history.enum _ hlast
        (decide_eq_true (Or.inr (Or.inl rfl))),
      List.getLast?_eq_getElem? history,
      List.getElem?_eq_getElem (by omega)]
    rfl

/-- Witness for `downsample_boundary` at a concrete input. -/
theorem downsample_boundary_witness :
    (smart_downsample_history some [(1 : ℚ), 2, 3, 10] 2).head? =
      [(1 : ℚ), 2, 3, 10].head? ∧
    (smart_downsample_history some [(1 : ℚ), 2, 3, 10] 2).getLast? =
      [(1 : ℚ), 2, 3, 10].getLast? :=
  downsample_boundary some [(1 : ℚ), 2, 3, 10] 2 (by decide)

/-- C4: for a chronological timestamp sequence and an interior index, the
source's eviction score equals the spec's formula (the source guards with
`range > 0` where the spec says `range == 0`; on a chronological sequence the
range is nonnegative, so the two branches agree). -/
theorem combined_score_eq_spec (t : List ℚ) (i : ℕ)
    (hchron : t.Sorted (· ≤ ·)) (h0 : 0 < i) (hn : i < t.length - 1) :
    combined_score t i = spec_score t i := by
  have hlen : 0 < t.length := by omega
  have hle : t.getD 0 0 ≤ t.getD (t.length - 1) 0 := by
    have h2 : t.length - 1 < t.length := by omega
    rw [List.getD_eq_getElem _ _ hlen, List.getD_eq_getElem _ _ h2]
    exact List.pairwise_iff_getElem.mp hchron 0 (t.length - 1) hlen h2 (by omega)
  simp only [combined_score, spec_score]
  by_cases hr : t.getD (t.length - 1) 0 - t.getD 0 0 = 0
  · rw [hr]
    norm_num
  · have hpos : 0 < t.getD (t.length - 1) 0 - t.getD 0 0 :=
      lt_of_le_of_ne (by linarith) (Ne.symm hr)
    rw [if_pos hpos, if_pos hpos, if_neg hr]

/-- Witness for `combined_score_eq_spec` at a concrete input. -/
theorem combined_score_eq_spec_witness :
    combined_score [(0 : ℚ), 1, 2] 1 = spec_score [(0 : ℚ), 1, 2] 1 :=
  combined_score_eq_spec [(0 : ℚ), 1, 2] 1 (by decide) (by decide) (by decide)

/-- With no scoreable interior point, nothing is marked for removal and the
downsampler returns its input unchanged even above the cap. -/
theorem downsample_of_no_scoreable {α : Type} (parse : α → Option ℚ)
    (history : List α) (max_entries : ℕ)
    (hnil : scoreable_indices (history.map (timestamp_sec parse)) = []) :
    smart_downsample_history parse history max_entries = history := by
  by_cases hle : history.length ≤ max_entries
  · exact downsample_of_le parse history _ hle
  · rw [smart_downsample_eq parse history _ hle]
    have hrem : removal_indices (history.map (timestamp_sec parse))
        (history.length - max_entries) = [] := by
      unfold removal_indices scores_list
      rw [hnil]
      simp
    rw [hrem]
    have hall : ∀ p ∈ history.enum,
        decide (p.1 = 0 ∨ p.1 = history.length - 1 ∨ p.1 ∉ ([] : List ℕ)) = true :=
      fun p _ => decide_eq_true (Or.inr (Or.inr (List.not_mem_nil p.1)))
    rw [List.filter_eq_self.mpr hall, List.enum_map_snd]

/-- When `to_remove_count` is at least the number of scored points, the
removal list holds exactly the scoreable indices. -/
theorem mem_removal_iff_of_ge {secs : List ℚ} {k : ℕ}
    (hk : (scores_list secs).length ≤ k) (j : ℕ) :
    j ∈ removal_indices secs k ↔ j ∈ scoreable_indices secs := by
  unfold removal_indices
  rw [List.take_of_length_le (by rw [List.length_mergeSort]; exact hk)]
  have hperm := (List.mergeSort_perm (scores_list secs)
    (fun a b => decide (b.2 ≤ a.2))).map Prod.fst
  rw [scores_list_map_fst] at hperm
  exact hperm.mem_iff

/-- When every scoreable point is removed (fewer scoreable interior points
than `to_remove_count`), every interior entry of the output carries the
sentinel epoch value 0. -/
theorem interior_sec_zero_of_overfull {α : Type} (parse : α → Option ℚ)
    (history : List α) (max_entries : ℕ)
    (hover : max_entries < history.length)
    (hsk : (scores_list (history.map (timestamp_sec parse))).length ≤
      history.length - max_entries) :
    ∀ i : ℕ, 0 < i →
      i + 1 < (smart_downsample_history parse history max_entries).length →
      ((smart_downsample_history parse history max_entries).map
        (timestamp_sec parse)).getD i 0 = 0 := by
  have heq := smart_downsample_eq parse history max_entries (by omega)
  set P : ℕ × α → Bool := fun p =>
    decide (p.1 = 0 ∨ p.1 = history.length - 1 ∨
      p.1 ∉ removal_indices (history.map (timestamp_sec parse))
        (history.length - max_entries)) with hP
  set F := history.enum.filter P with hF
  intro i h0 hlast
  have hFlen : (smart_downsample_history parse history max_entries).length =
      F.length := by
    rw [heq, List.length_map]
  have hiF : i < F.length := by omega
  set q := F.get ⟨i, hiF⟩ with hq
  have hri : (smart_downsample_history parse history max_entries)[i]? =
      some q.2 := by
    rw [heq, List.getElem?_map, List.getElem?_eq_getElem hiF]
    rfl
  have hqmem : q ∈ F := List.get_mem F i hiF
  have hqenum : q ∈ history.enum := (List.mem_filter.mp hqmem).1
  have hqP : P q = true := (List.mem_filter.mp hqmem).2
  have hqelem : history[q.1]? = some q.2 :=
    List.mem_enum_iff_getElem?.mp hqenum
  rcases List.getElem?_eq_some_iff.mp hqelem with ⟨hqlt, hqval⟩
  -- indices of kept entries are strictly increasing and below the length
  have hpw : (F.map Prod.fst).Pairwise (· < ·) := by
    have hsub : List.Sublist (F.map Prod.fst) (history.enum.map Prod.fst) :=
      (List.filter_sublist history.enum).map Prod.fst
    rw [List.enum_map_fst] at hsub
    exact (List.pairwise_lt_range history.length).sublist hsub
  have hpw2 := List.pairwise_iff_getElem.mp hpw
  have h0F : 0 < F.length := by omega
  have hlastF : F.length - 1 < F.length := by omega
  have hlt1 : (F.get ⟨0, h0F⟩).1 < q.1 := by
    have h01 := hpw2 0 i (by rw [List.length_map]; omega)
      (by rw [List.length_map]; omega) h0
    rwa [List.getElem_map, List.getElem_map] at h01
  have hlt2 : q.1 < (F.get ⟨F.length - 1, hlastF⟩).1 := by
    have h02 := hpw2 i (F.length - 1) (by rw [List.length_map]; omega)
      (by rw [List.length_map]; omega) (by omega)
    rwa [List.getElem_map, List.getElem_map] at h02
  have hlt3 : (F.get ⟨F.length - 1, hlastF⟩).1 < history.length := by
    have hm : F.get ⟨F.length - 1, hlastF⟩ ∈ history.enum :=
      (List.mem_filter.mp (List.get_mem F (F.length - 1) hlastF)).1
    rcases List.getElem?_eq_some_iff.mp
      (List.mem_enum_iff_getElem?.mp hm) with ⟨hb, -⟩
    exact hb
  -- from the keep predicate: q.1 was not marked for removal
  have hnem : q.1 ∉ removal_indices (history.map (timestamp_sec parse))
      (history.length - max_entries) := by
    rcases of_decide_eq_true hqP with h | h | h
    · omega
    · omega
    · exact h
  have hnscore : q.1 ∉ scoreable_indices (history.map (timestamp_sec parse)) := by
    intro hmem
    exact hnem ((mem_removal_iff_of_ge hsk q.1).mpr hmem)
  -- an interior index missing from the scoreable list has the sentinel value
  have hzero : (history.map (timestamp_sec parse)).getD q.1 0 = 0 := by
    by_contra hnz
    apply hnscore
    unfold scoreable_indices
    refine List.mem_filter.mpr ⟨?_, decide_eq_true hnz⟩
    rw [List.length_map]
    exact List.mem_range'_1.mpr ⟨by omega, by omega⟩
  have hlt : q.1 < (history.map (timestamp_sec parse)).length := by
    rw [List.length_map]; exact hqlt
  rw [List.getD_eq_getElem _ _ hlt, List.getElem_map, hqval] at hzero
  rw [List.getD_eq_getElem?_getD, List.getElem?_map, hri]
  exact hzero

/-- C8: the downsampler is idempotent — applying it twice gives the same
result as once — and within the cap it is the identity. -/
theorem downsample_idempotent {α : Type} (parse : α → Option ℚ)
    (history : List α) (max_entries : ℕ) :
    (2 ≤ max_entries →
      smart_downsample_history parse
          (smart_downsample_history parse history max_entries) max_entries =
        smart_downsample_history parse history max_entries) ∧
    (history.length ≤ max_entries →
      smart_downsample_history parse history max_entries = history) := by
  constructor
  · intro _
    by_cases hle : history.length ≤ max_entries
    · rw [downsample_of_le parse history _ hle]
      exact downsample_of_le parse history _ hle
    · by_cases hsk : (scores_list (history.map (timestamp_sec parse))).length ≤
          history.length - max_entries
      · -- all scoreable interior points removed: the second pass scores nothing
        apply downsample_of_no_scoreable
        unfold scoreable_indices
        rw [List.filter_eq_nil_iff]
        intro a ha
        rw [List.length_map] at ha
        rcases List.mem_range'_1.mp ha with ⟨ha1, ha2⟩
        rw [decide_eq_true_eq, Decidable.not_not]
        exact interior_sec_zero_of_overfull parse history max_entries
          (by omega) hsk a (by omega) (by omega)
      · -- exactly to_remove_count points removed: the result is within the cap
        apply downsample_of_le
        rw [smart_downsample_length parse history max_entries (by omega)]
        omega
  · exact downsample_of_le parse history max_entries

/-- Witness for `downsample_idempotent` at concrete inputs. -/
theorem downsample_idempotent_witness :
    smart_downsample_history some
        (smart_downsample_history some [(1 : ℚ), 2, 3, 10] 2) 2 =
      smart_downsample_history some [(1 : ℚ), 2, 3, 10] 2 ∧
    smart_downsample_history some [(5 : ℚ), 6] 2 = [(5 : ℚ), 6] :=
  ⟨(downsample_idempotent some [(1 : ℚ), 2, 3, 10] 2).1 (by decide),
   (downsample_idempotent some [(5 : ℚ), 6] 2).2 (by decide)⟩

end AgenticOptimizer
